import Mathlib

/-!
Verification of the Mobile-Presence-Mode detection pipeline.

The development shallowly embeds the pipeline of `src/presence_detector.py`
and `src/utils/signal_filter.py`:

* `detect_presence`           — `PresenceDetector.detect_presence`
* `extract_breathing_signal`  — `PresenceDetector.extract_breathing_signal`
* `estimate_breathing_rate`   — `PresenceDetector.estimate_breathing_rate`
* `normalize_signal`          — `signal_filter.normalize_signal`
* `extract_breathing_features`— `signal_filter.extract_breathing_features`
* `filtfilt`, `lfilter`, `oddExt`, `findPeaks` — the scipy routines the code
  calls (`scipy.signal.filtfilt` with its default `padtype='odd'`,
  `padlen = 3 * max(len(a), len(b))`, `scipy.signal.find_peaks` with the
  `distance` keyword), modelled in exact rational arithmetic.

Real-valued data is modelled by `ℚ`.  The Butterworth design
`signal.butter(4, [low, high], btype='band')` returns numerator and
denominator arrays of length `2*4 + 1 = 9` whose values are transcendental
functions of the cutoffs and therefore have no exact rational representation;
the coefficients, together with the steady state `lfilter_zi(b, a)` (the
solution of a linear system in them, length `9 - 1 = 8`), are carried as a
parameter `Coeffs`, and every statement that touches the filtered signal is
proved for every possible value of that parameter.
-/

/-- Arithmetic mean of a list, `numpy.mean`: sum divided by length.  On the
empty list Lean's `0 / 0 = 0` convention applies; every use below is either
guarded by the code's own emptiness checks or insensitive to that value. -/
def qMean (l : List ℚ) : ℚ := l.sum / l.length

/-- Population variance of a list, `numpy.var` (with its default `ddof = 0`):
the mean of the squared deviations from the mean. -/
def qVar (l : List ℚ) : ℚ := qMean (l.map (fun x => (x - qMean l) ^ 2))

/-- Exact square root on `ℚ`: the nonnegative rational square root where one
exists, `0` otherwise.  `numpy.std` is the square root of the population
variance; the development only ever inspects its value at inputs whose
variance is a perfect rational square (every concrete input evaluated below
is chosen that way), and branches that compare `np.std(x)` with `0` are
modelled by the equivalent comparison of the variance with `0`. -/
def ratSqrt (q : ℚ) : ℚ :=
  if q < 0 then 0
  else
    let n := q.num.toNat
    let d := q.den
    if Nat.sqrt n * Nat.sqrt n = n ∧ Nat.sqrt d * Nat.sqrt d = d then
      (Nat.sqrt n : ℚ) / (Nat.sqrt d : ℚ)
    else 0

/-- The value of `numpy.std` on a list: square root of the population
variance (see `ratSqrt` for the exactness proviso). -/
def npStd (l : List ℚ) : ℚ := ratSqrt (qVar l)

/-- An `AmplitudeFrame`: the CSI amplitude matrix, one row per time sample,
one column per subcarrier, exactly the `csi_data` array of the code. -/
abbrev Frame := List (List ℚ)

/-- Mean across subcarriers of one sample, a row of `np.mean(csi_data, axis=1)`. -/
def rowMean (r : List ℚ) : ℚ := qMean r

/-- The time series of subcarrier `j`, a column of the frame. -/
def colVals (f : Frame) (j : Nat) : List ℚ := f.map (fun r => r.getD j 0)

/-- The subcarrier count of a frame (the common row length of the 2-D array). -/
def numSub (f : Frame) : Nat := (f.headD []).length

/-- The score of the Variance Classifier: `np.mean(np.var(csi_data, axis=0))`,
the arithmetic mean of the per-subcarrier variances across the window
(`presence_detector.py` lines 36-37). -/
def varianceScore (f : Frame) : ℚ :=
  qMean ((List.range (numSub f)).map (fun j => qVar (colVals f j)))

/-- `self.presence_threshold = 0.15` of `PresenceDetector.__init__`. -/
def presence_threshold : ℚ := 15 / 100

/-- `self.breathing_threshold = 0.05` of `PresenceDetector.__init__`. -/
def breathing_threshold : ℚ := 5 / 100

/-- `PresenceDetector.detect_presence` (lines 22-45): empty input returns the
neutral verdict; otherwise presence is `mean_variance > presence_threshold`
and breathing is `mean_variance > breathing_threshold and
mean_variance < presence_threshold`.  The thresholds are the instance
attributes, taken here as parameters. -/
def detect_presence (pThr bThr : ℚ) (f : Frame) : Bool × Bool × ℚ :=
  if f.length = 0 then (false, false, 0)
  else
    let v := varianceScore f
    (decide (pThr < v), decide (bThr < v) && decide (v < pThr), v)

/-- C6 — for every pair of thresholds, the empty frame yields the neutral
verdict `(False, False, 0.0)`: the guard `if len(csi_data) == 0` returns
before any variance computation. -/
theorem empty_frame_neutral_verdict (pThr bThr : ℚ) :
    detect_presence pThr bThr [] = (false, false, 0) := by
  simp [detect_presence]

/-- C10 — the presence and breathing flags of one verdict are never both
true: breathing requires the score strictly below `presence_threshold` while
presence requires it strictly above, for any thresholds and any frame. -/
theorem presence_breathing_mutually_exclusive (pThr bThr : ℚ) (f : Frame) :
    ¬((detect_presence pThr bThr f).1 = true ∧
      (detect_presence pThr bThr f).2.1 = true) := by
  rintro ⟨hp, hb⟩
  unfold detect_presence at hp hb
  by_cases h : f.length = 0
  · simp [h] at hp
  · simp only [h, if_false, Bool.and_eq_true, decide_eq_true_eq] at hp hb
    exact absurd hp (not_lt_of_lt hb.2)

/-- C8 — presence is antitone in the threshold: with everything else fixed,
if the verdict declares presence at threshold `t2` it also declares it at any
threshold `t1 ≤ t2`. -/
theorem presence_antitone_in_threshold (f : Frame) (t1 t2 bThr : ℚ)
    (hle : t1 ≤ t2) (h2 : (detect_presence t2 bThr f).1 = true) :
    (detect_presence t1 bThr f).1 = true := by
  unfold detect_presence at h2 ⊢
  by_cases h : f.length = 0
  · simp [h] at h2
  · simp only [h, if_false, decide_eq_true_eq] at h2 ⊢
    exact lt_of_le_of_lt hle h2

/-- Witness for C8 at a concrete input: a two-sample frame whose score `1/4`
exceeds the default presence threshold `3/20`, with `t1 = 1/20 ≤ 3/20 = t2`. -/
theorem presence_antitone_in_threshold_witness :
    (detect_presence (1/20) (5/100) [[0], [1]]).1 = true :=
  presence_antitone_in_threshold [[0], [1]] (1/20) (15/100) (5/100)
    (by norm_num)
    (by norm_num [detect_presence, varianceScore, numSub, colVals, qVar, qMean,
                  List.range_succ])

/-- Coefficient data of the Butterworth bandpass design used by the code:
`b, a = signal.butter(4, [low, high], btype='band')` returns numerator and
denominator arrays of length `2*4 + 1 = 9`, and `lfilter_zi(b, a)` (used
inside `filtfilt`) is the solution of a linear system in them, of length
`9 - 1 = 8`.  The numeric values arise from a transcendental design
procedure and have no exact rational representation, so they are carried as
a parameter; every theorem below that involves the filter holds for all
values of this parameter, hence in particular for the actual Butterworth
coefficients. -/
structure Coeffs where
  b : List ℚ
  a : List ℚ
  zi : List ℚ
  hb : b.length = 9
  ha : a.length = 9
  hzi : zi.length = 8

/-- One step of `scipy.signal.lfilter` in direct form II transposed, with
coefficients already normalized by `a[0]`: the output sample together with
the updated delay state `z` (`z_i' = b_{i+1} x - a_{i+1} y + z_{i+1}`,
indices past the end reading as `0`). -/
def df2tStep (bn an z : List ℚ) (x : ℚ) : ℚ × List ℚ :=
  let y := bn.headD 0 * x + z.headD 0
  (y, (List.range z.length).map
        (fun i => bn.getD (i + 1) 0 * x - an.getD (i + 1) 0 * y + z.getD (i + 1) 0))

/-- The `scipy.signal.lfilter` recursion with initial delay state `z`,
coefficients already normalized by `a[0]`. -/
def lfilter (bn an : List ℚ) : List ℚ → List ℚ → List ℚ
  | _, [] => []
  | z, x :: xs =>
    let s := df2tStep bn an z x
    s.1 :: lfilter bn an s.2 xs

/-- Odd extension of a signal by `edge` samples on each side, scipy's
`odd_ext` as used by `filtfilt` with its default `padtype='odd'`: the left
pad is `2*x[0] - x[edge], ..., 2*x[0] - x[1]` and the right pad is
`2*x[-1] - x[-2], ..., 2*x[-1] - x[-(edge+1)]`. -/
def oddExt (edge : Nat) (x : List ℚ) : List ℚ :=
  let x0 := x.headD 0
  let xl := x.getLastD 0
  ((List.range edge).map (fun i => 2 * x0 - x.getD (edge - i) 0))
    ++ x
    ++ ((List.range edge).map (fun i => 2 * xl - x.getD (x.length - 2 - i) 0))

/-- The zero-phase filter `scipy.signal.filtfilt(b, a, x)` with its default
arguments: `padlen = 3 * max(len(a), len(b))`, odd extension, a forward pass
seeded with `zi * ext[0]`, a backward pass over the reversed output seeded
with `zi * y[-1]`, and the central slice `y[edge:-edge]`.  scipy raises
`ValueError` when the input is not longer than `padlen`; that outcome is the
`none` value. -/
def filtfilt (c : Coeffs) (x : List ℚ) : Option (List ℚ) :=
  let edge := 3 * max c.a.length c.b.length
  if x.length ≤ edge then none
  else
    let a0 := c.a.headD 0
    let bn := c.b.map (fun v => v / a0)
    let an := c.a.map (fun v => v / a0)
    let ext := oddExt edge x
    let y1 := lfilter bn an (c.zi.map (fun v => v * ext.headD 0)) ext
    let y2 := lfilter bn an (c.zi.map (fun v => v * y1.getLastD 0)) y1.reverse
    some ((y2.reverse.drop edge).take x.length)

/-- Outcome of `PresenceDetector.extract_breathing_signal`: the returned
array, or one of the two numeric failures the code does not guard against
(IEEE division of the zero vector by a zero standard deviation, which fills
the signal with NaN; and the `ValueError` scipy's `filtfilt` raises on an
input not longer than `padlen`). -/
inductive ExtractResult where
  | ok (s : List ℚ)
  | nanDivision
  | filterLengthError

/-- `PresenceDetector.extract_breathing_signal` (lines 47-79): empty input
returns an empty array; otherwise the code averages across subcarriers,
normalizes with an unguarded division by `np.std` (zero exactly when the
variance is zero, in which case the division produces NaN — modelled as
`nanDivision`), and runs the 4th-order Butterworth bandpass through
`filtfilt` (which raises on inputs of at most `padlen = 27` samples —
modelled as `filterLengthError`). -/
def extract_breathing_signal (c : Coeffs) (f : Frame) : ExtractResult :=
  if f.length = 0 then .ok []
  else
    let m := f.map rowMean
    if qVar m = 0 then .nanDivision
    else
      match filtfilt c (m.map (fun x => (x - qMean m) / npStd m)) with
      | some y => .ok y
      | none => .filterLengthError

/-- Helper: the mean of a constant list is that constant (list nonempty). -/
theorem qMean_replicate (n : Nat) (hn : n ≠ 0) (x : ℚ) :
    qMean (List.replicate n x) = x := by
  have hn' : (n : ℚ) ≠ 0 := Nat.cast_ne_zero.mpr hn
  simp [qMean, List.sum_replicate, nsmul_eq_mul]
  field_simp

/-- Helper: a constant list has zero variance. -/
theorem qVar_replicate (n : Nat) (x : ℚ) :
    qVar (List.replicate n x) = 0 := by
  rcases Nat.eq_zero_or_pos n with h | h
  · subst h; simp [qVar, qMean]
  · have hx := qMean_replicate n (Nat.pos_iff_ne_zero.mp h) x
    unfold qVar
    rw [hx]
    have h2 : (List.replicate n x).map (fun v => (v - x) ^ 2) = List.replicate n 0 := by
      simp
    rw [h2]
    simp [qMean]

/-- Helper: the mean of `k` copies of `a` followed by `k` copies of `b` is
the midpoint `(a + b) / 2`. -/
theorem qMean_halves (k : Nat) (hk : k ≠ 0) (a b : ℚ) :
    qMean (List.replicate k a ++ List.replicate k b) = (a + b) / 2 := by
  have hkpos : (0 : ℚ) < k := by exact_mod_cast Nat.pos_of_ne_zero hk
  have h2 : ((k : ℚ) + k) ≠ 0 := ne_of_gt (by linarith)
  simp [qMean, List.sum_replicate, nsmul_eq_mul]
  rw [div_eq_div_iff h2 (by norm_num)]
  ring

/-- Helper: the variance of `k` copies of `a` followed by `k` copies of `b`
is `((a - b) / 2) ^ 2`. -/
theorem qVar_halves (k : Nat) (hk : k ≠ 0) (a b : ℚ) :
    qVar (List.replicate k a ++ List.replicate k b) = ((a - b) / 2) ^ 2 := by
  unfold qVar
  rw [qMean_halves k hk a b]
  have h1 : (List.replicate k a ++ List.replicate k b).map
      (fun x => (x - (a + b) / 2) ^ 2)
      = List.replicate k ((a - (a + b) / 2) ^ 2) ++ List.replicate k ((b - (a + b) / 2) ^ 2) := by
    simp
  rw [h1]
  have h2 : (a - (a + b) / 2) ^ 2 = ((a - b) / 2) ^ 2 := by ring
  have h3 : (b - (a + b) / 2) ^ 2 = ((a - b) / 2) ^ 2 := by ring
  rw [h2, h3, ← List.replicate_add]
  exact qMean_replicate (k + k) (by omega) _

/-- Helper: `ratSqrt` is exact on squares of nonnegative rationals. -/
theorem ratSqrt_eq (r : ℚ) (h0 : 0 ≤ r) : ratSqrt (r * r) = r := by
  have hn0 : 0 ≤ r.num := Rat.num_nonneg.mpr h0
  rcases Int.eq_ofNat_of_zero_le hn0 with ⟨m, hm⟩
  have htn : (r * r).num.toNat = m * m := by
    rw [Rat.mul_self_num, hm, ← Nat.cast_mul, Int.toNat_natCast]
  have hden : (r * r).den = r.den * r.den := Rat.mul_self_den r
  have hr0 : ¬(r * r < 0) := not_lt.mpr (mul_self_nonneg r)
  unfold ratSqrt
  rw [if_neg hr0]
  simp only [htn, hden, Nat.sqrt_eq, and_self, if_true]
  have hmq : ((m : ℚ)) = (r.num : ℚ) := by rw [hm]; simp
  rw [hmq]
  exact Rat.num_div_den r

/-- Helper: reading any index of an all-zero list yields zero. -/
theorem getD_replicate_zero (n i : Nat) : (List.replicate n (0:ℚ)).getD i 0 = 0 := by
  simp only [List.getD_eq_getElem?_getD, List.getElem?_replicate]
  split <;> simp

/-- Helper: the head of an all-zero list defaults to zero either way. -/
theorem headD_replicate_zero (n : Nat) : (List.replicate n (0:ℚ)).headD 0 = 0 := by
  cases n <;> simp [List.replicate_succ]

/-- Helper: the last element of an all-zero list defaults to zero either way. -/
theorem getLastD_replicate_zero (n : Nat) : (List.replicate n (0:ℚ)).getLastD 0 = 0 := by
  induction n with
  | zero => rfl
  | succ m ih =>
    rcases Nat.eq_zero_or_pos m with h | h
    · subst h; rfl
    · obtain ⟨k, rfl⟩ := Nat.exists_eq_add_of_lt h
      simp only [List.replicate_succ, List.getLastD_cons] at ih ⊢
      simpa using ih

/-- Helper: the odd extension of the zero signal is the zero signal. -/
theorem oddExt_zero (e n : Nat) :
    oddExt e (List.replicate n 0) = List.replicate (e + n + e) 0 := by
  apply List.eq_replicate_iff.mpr
  refine ⟨by simp [oddExt]; omega, ?_⟩
  intro b hb
  simp only [oddExt, headD_replicate_zero, getLastD_replicate_zero, List.mem_append,
    List.mem_map, List.mem_range, List.mem_replicate] at hb
  rcases hb with (⟨i, _, hbi⟩ | h) | ⟨i, _, hbi⟩
  · rw [← hbi, getD_replicate_zero]; ring
  · exact h.2
  · rw [← hbi, getD_replicate_zero]; ring

/-- Helper: one filter step on zero state and zero input stays at zero. -/
theorem df2tStep_zero (bn an : List ℚ) (k : Nat) :
    df2tStep bn an (List.replicate k 0) 0 = (0, List.replicate k 0) := by
  unfold df2tStep
  rw [headD_replicate_zero]
  simp only [mul_zero, add_zero, zero_add]
  refine Prod.ext rfl ?_
  apply List.eq_replicate_iff.mpr
  refine ⟨by simp, ?_⟩
  intro b hb
  simp only [List.mem_map, List.mem_range] at hb
  obtain ⟨i, _, hbi⟩ := hb
  rw [← hbi, getD_replicate_zero]
  ring

/-- Helper: the filter recursion maps the zero signal to the zero signal from
a zero delay state, for any coefficients. -/
theorem lfilter_zero (bn an : List ℚ) (k : Nat) :
    ∀ m, lfilter bn an (List.replicate k 0) (List.replicate m 0) = List.replicate m 0 := by
  intro m
  induction m with
  | zero => rfl
  | succ m ih =>
    rw [List.replicate_succ]
    unfold lfilter
    rw [df2tStep_zero]
    simp [ih]

/-- Helper: scaling any list by zero yields an all-zero list of its length. -/
theorem map_mul_zero (l : List ℚ) :
    l.map (fun v => v * (0:ℚ)) = List.replicate l.length 0 := by
  apply List.eq_replicate_iff.mpr
  refine ⟨by simp, ?_⟩
  intro b hb
  simp only [List.mem_map] at hb
  obtain ⟨v, _, hbv⟩ := hb
  rw [← hbv]; ring

/-- Helper: `filtfilt` maps the zero signal to the zero signal whenever the
input is long enough, for every coefficient value — the forward and backward
passes are seeded with `zi * 0 = 0` and the recursion preserves zero. -/
theorem filtfilt_zero (c : Coeffs) (n : Nat) (h : 27 < n) :
    filtfilt c (List.replicate n 0) = some (List.replicate n 0) := by
  unfold filtfilt
  rw [c.ha, c.hb]
  have hmax : 3 * max 9 9 = 27 := by norm_num
  rw [hmax]
  rw [if_neg (by simp; omega)]
  simp only [oddExt_zero, headD_replicate_zero, map_mul_zero, c.hzi, lfilter_zero,
    getLastD_replicate_zero, List.reverse_replicate, List.drop_replicate,
    List.length_replicate, List.take_replicate, Option.some.injEq]
  congr 1
  omega

/-- Helper: scipy's `filtfilt` refuses inputs of at most `padlen = 27`
samples (`ValueError`), for every coefficient value. -/
theorem filtfilt_short (c : Coeffs) (x : List ℚ) (h : x.length ≤ 27) :
    filtfilt c x = none := by
  unfold filtfilt
  rw [c.ha, c.hb]
  have hmax : 3 * max 9 9 = 27 := by norm_num
  rw [hmax, if_pos h]

/-- Helper: the filter recursion preserves length for any state and input. -/
theorem lfilter_length (bn an : List ℚ) (z l : List ℚ) :
    (lfilter bn an z l).length = l.length := by
  induction l generalizing z with
  | nil => rfl
  | cons x xs ih => simp [lfilter, ih]

/-- Helper: the odd extension adds exactly `edge` samples on each side. -/
theorem oddExt_length (e : Nat) (x : List ℚ) :
    (oddExt e x).length = e + x.length + e := by
  simp [oddExt]
  omega

/-- Helper: a successful `filtfilt` output has the length of its input: the
central slice `y[edge:-edge]` of the padded signal recovers exactly the
input length. -/
theorem filtfilt_length (c : Coeffs) (x y : List ℚ)
    (h : filtfilt c x = some y) : y.length = x.length := by
  unfold filtfilt at h
  by_cases hle : x.length ≤ 3 * max c.a.length c.b.length
  · rw [if_pos hle] at h; cases h
  · rw [if_neg hle] at h
    simp only [Option.some.injEq] at h
    rw [← h, List.length_take, List.length_drop, List.length_reverse,
      lfilter_length, List.length_reverse, lfilter_length, oddExt_length]
    omega

/-- Concrete failing input for C3: five samples of one subcarrier, not
constant (so the normalization step succeeds with the exact standard
deviation `2/5`), but far below the 28 samples `filtfilt` demands. -/
def frame5 : Frame := [[0], [0], [0], [0], [1]]

/-- C3 — the code has no minimum-sample guard: on any non-empty frame with
at most `padlen = 27` samples (in particular every frame below the spec's
15-sample minimum), `extract_breathing_signal` normalizes and then calls
`filtfilt`, which raises `ValueError` instead of returning an empty or
unfiltered series.  Proved here for a 5-sample frame and every possible
coefficient value. -/
theorem short_frame_hits_filter_length_error (c : Coeffs) :
    extract_breathing_signal c frame5 = ExtractResult.filterLengthError := by
  have hm : frame5.map rowMean = [0, 0, 0, 0, 1] := by
    norm_num [frame5, rowMean, qMean]
  unfold extract_breathing_signal
  rw [if_neg (by norm_num [frame5])]
  simp only [hm]
  rw [if_neg (by norm_num [qVar, qMean])]
  rw [filtfilt_short c _ (by simp)]

/-- Concrete failing input for C4: thirty constant samples of two
subcarriers — long enough for the filter, but with zero variance. -/
def constFrame : Frame := List.replicate 30 [1, 1]

/-- C4 — the normalization inside `extract_breathing_signal` (line 63-64 of
`presence_detector.py`) divides by `np.std` without the zero guard that
`normalize_signal` in `signal_filter.py` has: a constant non-empty frame
reaches the division with standard deviation `0.0` and the signal becomes
NaN, instead of being only mean-centered as the spec requires. -/
theorem constant_frame_div_by_zero_std (c : Coeffs) :
    extract_breathing_signal c constFrame = ExtractResult.nanDivision := by
  have hm : constFrame.map rowMean = List.replicate 30 1 := by
    simp [constFrame, rowMean, qMean]
  unfold extract_breathing_signal
  rw [if_neg (by simp [constFrame])]
  simp only [hm]
  rw [if_pos (qVar_replicate 30 1)]

/-- Two successive runs of the extractor on the same frame, as one value:
the Python method writes no instance attribute and reads none that any call
could have changed (`fs` and the cutoffs are method-local constants), so its
embedding is a pure function and a second run is literally the same
computation. -/
def runExtractTwice (c : Coeffs) (f : Frame) : ExtractResult × ExtractResult :=
  (extract_breathing_signal c f, extract_breathing_signal c f)

/-- C9 — running the Band-Limited Signal Extractor twice on the same frame
yields identical output: the extractor is a deterministic function of the
frame (and the fixed filter design) with no hidden state. -/
theorem extract_run_twice_identical (c : Coeffs) (f : Frame) :
    (runExtractTwice c f).1 = (runExtractTwice c f).2 := rfl

/-- C7 — whenever the extractor returns a signal on a non-empty frame, that
signal has exactly one value per input sample: averaging and normalizing
preserve the length, and `filtfilt`'s central slice recovers the input
length. -/
theorem extract_output_length_eq_input_length (c : Coeffs) (f : Frame)
    (s : List ℚ) (hne : f ≠ [])
    (hok : extract_breathing_signal c f = ExtractResult.ok s) :
    s.length = f.length := by
  unfold extract_breathing_signal at hok
  rw [if_neg (by simpa using hne)] at hok
  simp only [] at hok
  by_cases hv : qVar (f.map rowMean) = 0
  · rw [if_pos hv] at hok; cases hok
  · rw [if_neg hv] at hok
    rcases hfl : filtfilt c ((f.map rowMean).map
        (fun x => (x - qMean (f.map rowMean)) / npStd (f.map rowMean))) with _ | y
    · rw [hfl] at hok; cases hok
    · rw [hfl] at hok
      injection hok with hy
      rw [← hy]
      have hl := filtfilt_length c _ _ hfl
      rw [hl, List.length_map, List.length_map]

/-- Concrete coefficient values for the C7 witness: the identity filter
(`b = a = [1,0,...,0]`, zero steady state).  The witness only exercises the
theorem, which holds for every coefficient value. -/
def c0 : Coeffs where
  b := 1 :: List.replicate 8 0
  a := 1 :: List.replicate 8 0
  zi := List.replicate 8 0
  hb := by simp
  ha := by simp
  hzi := by simp

/-- Helper: one filter step of the identity coefficients passes the sample
through and keeps the zero state. -/
theorem df2tStep_id (x : ℚ) :
    df2tStep (1 :: List.replicate 8 0) (1 :: List.replicate 8 0)
      (List.replicate 8 0) x = (x, List.replicate 8 0) := by
  unfold df2tStep
  simp only [List.headD_cons, headD_replicate_zero, one_mul, add_zero,
    List.length_replicate]
  refine Prod.ext rfl ?_
  apply List.eq_replicate_iff.mpr
  refine ⟨by simp, ?_⟩
  intro b hb
  simp only [List.mem_map, List.mem_range] at hb
  obtain ⟨i, _, hbi⟩ := hb
  rw [← hbi, List.getD_cons_succ, getD_replicate_zero, getD_replicate_zero]
  ring

/-- Helper: the identity coefficients filter any signal to itself. -/
theorem lfilter_id (xs : List ℚ) :
    lfilter (1 :: List.replicate 8 0) (1 :: List.replicate 8 0)
      (List.replicate 8 0) xs = xs := by
  induction xs with
  | nil => rfl
  | cons x xs ih =>
    unfold lfilter
    rw [df2tStep_id]
    show x :: lfilter (1 :: List.replicate 8 0) (1 :: List.replicate 8 0)
      (List.replicate 8 0) xs = x :: xs
    rw [ih]

/-- Helper: the central slice `[edge:-edge]` of the odd extension recovers
the original signal. -/
theorem oddExt_slice (e : Nat) (x : List ℚ) :
    ((oddExt e x).drop e).take x.length = x := by
  simp only [oddExt]
  generalize hL : (List.range e).map (fun i => 2 * x.headD 0 - x.getD (e - i) 0) = L
  generalize hR : (List.range e).map
    (fun i => 2 * x.getLastD 0 - x.getD (x.length - 2 - i) 0) = R
  have hLlen : L.length = e := by rw [← hL]; simp
  rw [List.append_assoc, ← hLlen, List.drop_left, List.take_left]

/-- Helper: with the identity coefficients, `filtfilt` returns its input
unchanged on any 28-sample signal. -/
theorem filtfilt_c0 (x : List ℚ) (h : x.length = 28) :
    filtfilt c0 x = some x := by
  simp only [filtfilt, c0, List.length_cons, List.length_replicate]
  rw [if_neg (by omega)]
  have hdiv : (1 :: List.replicate 8 (0:ℚ)).map
      (fun v => v / (1 :: List.replicate 8 (0:ℚ)).headD 0) = 1 :: List.replicate 8 0 := by
    simp
  have hzi : ∀ w : ℚ, (List.replicate 8 (0:ℚ)).map (fun v => v * w)
      = List.replicate 8 0 := by
    intro w; simp
  rw [hdiv, hzi, lfilter_id, hzi, lfilter_id, List.reverse_reverse, oddExt_slice]

/-- The 28-sample frame of the C7 witness: 14 zero samples then 14 unit
samples over one subcarrier (mean `1/2`, standard deviation exactly `1/2`). -/
def frame28 : Frame := List.replicate 14 [0] ++ List.replicate 14 [1]

/-- The signal the extractor returns on `frame28` under the identity
coefficients: the normalized series. -/
def out28 : List ℚ := List.replicate 14 (-1) ++ List.replicate 14 1

/-- Helper: the extractor evaluated on the witness frame. -/
theorem extract_c0_frame28 :
    extract_breathing_signal c0 frame28 = ExtractResult.ok out28 := by
  have hm : frame28.map rowMean = List.replicate 14 0 ++ List.replicate 14 1 := by
    simp [frame28, rowMean, qMean]
  have hvar : qVar (List.replicate 14 (0:ℚ) ++ List.replicate 14 1) = 1/4 := by
    rw [qVar_halves 14 (by norm_num) 0 1]; norm_num
  have hmean : qMean (List.replicate 14 (0:ℚ) ++ List.replicate 14 1) = 1/2 := by
    rw [qMean_halves 14 (by norm_num) 0 1]; norm_num
  have hstd : npStd (List.replicate 14 (0:ℚ) ++ List.replicate 14 1) = 1/2 := by
    unfold npStd
    rw [hvar, show (1/4 : ℚ) = (1/2) * (1/2) by norm_num,
      ratSqrt_eq (1/2) (by norm_num)]
  unfold extract_breathing_signal
  rw [if_neg (by simp [frame28])]
  simp only [hm]
  rw [if_neg (by rw [hvar]; norm_num)]
  have hnorm : (List.replicate 14 (0:ℚ) ++ List.replicate 14 1).map
      (fun x => (x - qMean (List.replicate 14 (0:ℚ) ++ List.replicate 14 1)) /
        npStd (List.replicate 14 (0:ℚ) ++ List.replicate 14 1)) = out28 := by
    rw [hmean, hstd]
    simp only [List.map_append, List.map_replicate, out28]
    norm_num
  rw [hnorm, filtfilt_c0 out28 (by simp [out28])]

/-- Witness for C7 at a concrete input: the identity-coefficient run on the
28-sample witness frame returns a 28-sample signal. -/
theorem extract_output_length_eq_input_length_witness :
    out28.length = frame28.length :=
  extract_output_length_eq_input_length c0 frame28 out28
    (by simp [frame28]) extract_c0_frame28

/-- Scan to the end of a plateau, the inner `while i_ahead < i_max and
x[i_ahead] == x[i]` loop of scipy's `_local_maxima_1d`: the first index
`j` at or past the start with `j = i_max` or `x[j] ≠ x[i]`.  The fuel
argument only bounds the loop; every call below supplies enough for the
scan to finish on its own condition. -/
def plateauEnd (x : List ℚ) (iMax i : Nat) : Nat → Nat → Nat
  | 0, j => j
  | fuel + 1, j =>
    if j < iMax ∧ x.getD j 0 = x.getD i 0 then plateauEnd x iMax i fuel (j + 1)
    else j

/-- The main loop of scipy's `_local_maxima_1d`: starting at sample 1 and
stopping before the last sample, emit the midpoint `(i + (i_ahead - 1)) / 2`
of every maximal run that rises on the left and falls on the right, then
continue after the run.  The fuel argument only bounds the loop. -/
def lmAux (x : List ℚ) (iMax : Nat) : Nat → Nat → List Nat
  | 0, _ => []
  | fuel + 1, i =>
    if i < iMax then
      if x.getD (i - 1) 0 < x.getD i 0 then
        if x.getD (plateauEnd x iMax i iMax (i + 1)) 0 < x.getD i 0 then
          (i + (plateauEnd x iMax i iMax (i + 1) - 1)) / 2
            :: lmAux x iMax fuel (plateauEnd x iMax i iMax (i + 1) + 1)
        else lmAux x iMax fuel (i + 1)
      else lmAux x iMax fuel (i + 1)
    else []

/-- Local maxima of a signal, scipy's `_local_maxima_1d` (the first stage of
`signal.find_peaks`): interior strict local maxima, plateaus reported at
their midpoint, first and last sample excluded. -/
def localMaxima (x : List ℚ) : List Nat := lmAux x (x.length - 1) x.length 1

/-- Insertion into a processing order sorted by descending priority.
`numpy.argsort` leaves the relative order of equal priorities unspecified
(its default sort is not stable); this model breaks ties by processing the
larger index first.  No theorem below depends on the tie order, and every
concrete priority list evaluated below is tie-free. -/
def insertDesc (vals : List ℚ) (i : Nat) : List Nat → List Nat
  | [] => [i]
  | j :: js =>
    if vals.getD j 0 < vals.getD i 0 ∨ (vals.getD j 0 = vals.getD i 0 ∧ j < i) then
      i :: j :: js
    else j :: insertDesc vals i js

/-- The order in which `_select_by_peak_distance` visits the peaks: indices
`0, ..., n-1` sorted by descending priority (scipy iterates
`np.argsort(priority)` backwards). -/
def procOrder (vals : List ℚ) : List Nat :=
  (List.range vals.length).foldr (insertDesc vals) []

/-- The `k = j - 1; while 0 <= k and peaks[j] - peaks[k] < distance` loop of
scipy's `_select_by_peak_distance`: flag every peak to the left of `j`
within the distance as removed; the counter argument is one above the
current index, so `0` means the walk has passed the left end. -/
def walkLeft (peaks : List Nat) (d j : Nat) : Nat → List Bool → List Bool
  | 0, keep => keep
  | k + 1, keep =>
    if (peaks.getD j 0 : Int) - peaks.getD k 0 < d then
      walkLeft peaks d j k (keep.set k false)
    else keep

/-- The `k = j + 1; while k < peaks_size and peaks[k] - peaks[j] < distance`
loop of scipy's `_select_by_peak_distance`; the fuel argument only bounds
the loop. -/
def walkRight (peaks : List Nat) (d j : Nat) : Nat → Nat → List Bool → List Bool
  | 0, _, keep => keep
  | fuel + 1, k, keep =>
    if k < peaks.length ∧ (peaks.getD k 0 : Int) - peaks.getD j 0 < d then
      walkRight peaks d j fuel (k + 1) (keep.set k false)
    else keep

/-- One iteration of `_select_by_peak_distance`: skip a peak already
removed, otherwise remove its neighbours within the distance on both
sides. -/
def stepKeep (peaks : List Nat) (d : Nat) (keep : List Bool) (j : Nat) : List Bool :=
  if keep.getD j false then
    walkRight peaks d j peaks.length (j + 1) (walkLeft peaks d j j keep)
  else keep

/-- scipy's `_select_by_peak_distance`: visit the peaks in descending
priority and keep a boolean flag per peak. -/
def selectByPeakDistance (peaks : List Nat) (vals : List ℚ) (d : Nat) : List Bool :=
  (procOrder vals).foldl (stepKeep peaks d) (List.replicate peaks.length true)

/-- `scipy.signal.find_peaks(x, distance=d)`: local maxima filtered by the
minimal-distance condition, returned in index order.  The code calls this
with `distance=5` in both `estimate_breathing_rate` and
`extract_breathing_features`. -/
def findPeaks (x : List ℚ) (d : Nat) : List Nat :=
  let peaks := localMaxima x
  let keep := selectByPeakDistance peaks (peaks.map (fun p => x.getD p 0)) d
  (List.range peaks.length).filterMap
    (fun i => if keep.getD i false then some (peaks.getD i 0) else none)

/-- Consecutive differences of the peak index list, `np.diff(peak_times)`
(the peak times of the code are the raw sample indices). -/
def diffsQ (l : List Nat) : List ℚ :=
  (l.zip l.tail).map (fun pq => (pq.2 : ℚ) - (pq.1 : ℚ))

/-- `PresenceDetector.estimate_breathing_rate` (lines 81-110): signals of
fewer than 10 samples yield `0.0`; peaks are found with `distance=5`; fewer
than 2 peaks yield `0.0`; otherwise the mean inter-peak sample distance is
converted with the hard-coded sampling rate `20.0` as
`60.0 / (avg_time_diff / 20.0)` (the `avg_time_diff > 0` test of the code
is kept although every reachable average is positive). -/
def estimate_breathing_rate (s : List ℚ) : ℚ :=
  if s.length < 10 then 0
  else
    let peaks := findPeaks s 5
    if peaks.length < 2 then 0
    else
      let avg := qMean (diffsQ peaks)
      if 0 < avg then 60 / (avg / 20) else 0

/-- `signal_filter.normalize_signal` (lines 82-95): divide by the standard
deviation only when it is positive (`np.std(data) > 0`, equivalently the
variance is positive), otherwise mean-center only. -/
def normalize_signal (data : List ℚ) : List ℚ :=
  if 0 < qVar data then data.map (fun x => (x - qMean data) / npStd data)
  else data.map (fun x => x - qMean data)

/-- The record `extract_breathing_features` returns (`signal_filter.py`
lines 143-149). -/
structure BreathingFeatures where
  variance : ℚ
  mean_amplitude : ℚ
  num_peaks : Nat
  breathing_signal : List ℚ
  peak_indices : List Nat

/-- `signal_filter.extract_breathing_features` (lines 117-152): average
across subcarriers, normalize through the guarded `normalize_signal`,
bandpass with the 4th-order Butterworth design (via `filtfilt`, which
raises on short input — the `none` outcome), then report the in-band
variance, mean absolute amplitude and the `distance=5` peaks. -/
def extract_breathing_features (c : Coeffs) (f : Frame) : Option BreathingFeatures :=
  let m := f.map rowMean
  match filtfilt c (normalize_signal m) with
  | none => none
  | some bs =>
      some { variance := qVar bs
             mean_amplitude := qMean (bs.map (fun v => |v|))
             num_peaks := (findPeaks bs 5).length
             breathing_signal := bs
             peak_indices := findPeaks bs 5 }

/-- Helper: the plateau scan never moves left. -/
theorem plateauEnd_ge (x : List ℚ) (iMax i : Nat) :
    ∀ fuel j, j ≤ plateauEnd x iMax i fuel j := by
  intro fuel
  induction fuel with
  | zero => intro j; exact le_refl j
  | succ fuel ih =>
    intro j
    unfold plateauEnd
    by_cases h : j < iMax ∧ x.getD j 0 = x.getD i 0
    · rw [if_pos h]
      exact le_trans (Nat.le_succ j) (ih (j + 1))
    · rw [if_neg h]

/-- Helper: every index the maxima scan emits is at least its current
position. -/
theorem lmAux_ge (x : List ℚ) (iMax : Nat) :
    ∀ fuel i p, p ∈ lmAux x iMax fuel i → i ≤ p := by
  intro fuel
  induction fuel with
  | zero => intro i p hp; cases hp
  | succ fuel ih =>
    intro i p hp
    unfold lmAux at hp
    by_cases h1 : i < iMax
    · rw [if_pos h1] at hp
      by_cases h2 : x.getD (i - 1) 0 < x.getD i 0
      · rw [if_pos h2] at hp
        by_cases h3 : x.getD (plateauEnd x iMax i iMax (i + 1)) 0 < x.getD i 0
        · rw [if_pos h3] at hp
          rcases List.mem_cons.mp hp with h | h
          · subst h
            have hge : i + 1 ≤ plateauEnd x iMax i iMax (i + 1) :=
              plateauEnd_ge x iMax i iMax (i + 1)
            omega
          · have := ih _ _ h
            have hge : i + 1 ≤ plateauEnd x iMax i iMax (i + 1) :=
              plateauEnd_ge x iMax i iMax (i + 1)
            omega
        · rw [if_neg h3] at hp
          have := ih _ _ hp; omega
      · rw [if_neg h2] at hp
        have := ih _ _ hp; omega
    · rw [if_neg h1] at hp; cases hp

/-- Helper: the maxima scan emits a strictly increasing index list. -/
theorem lmAux_chain (x : List ℚ) (iMax : Nat) :
    ∀ fuel i, List.Chain' (· < ·) (lmAux x iMax fuel i) := by
  intro fuel
  induction fuel with
  | zero => intro i; exact List.chain'_nil
  | succ fuel ih =>
    intro i
    unfold lmAux
    by_cases h1 : i < iMax
    · rw [if_pos h1]
      by_cases h2 : x.getD (i - 1) 0 < x.getD i 0
      · rw [if_pos h2]
        by_cases h3 : x.getD (plateauEnd x iMax i iMax (i + 1)) 0 < x.getD i 0
        · rw [if_pos h3]
          refine List.chain'_cons'.mpr ⟨?_, ih _⟩
          intro b hb
          have hbmem := List.mem_of_mem_head? hb
          have hbge := lmAux_ge x iMax fuel _ b hbmem
          have hge : i + 1 ≤ plateauEnd x iMax i iMax (i + 1) :=
            plateauEnd_ge x iMax i iMax (i + 1)
          omega
        · rw [if_neg h3]; exact ih _
      · rw [if_neg h2]; exact ih _
    · rw [if_neg h1]; exact List.chain'_nil

/-- Helper: the local maxima of any signal are strictly increasing. -/
theorem localMaxima_chain (x : List ℚ) :
    List.Chain' (· < ·) (localMaxima x) :=
  lmAux_chain x (x.length - 1) x.length 1

/-- Helper: reading a strictly increasing list at increasing positions gives
increasing values. -/
theorem chain_lt_getD (l : List Nat) (hc : List.Chain' (· < ·) l) (u v : Nat)
    (hu : u < v) (hv : v < l.length) : l.getD u 0 < l.getD v 0 := by
  have hp : List.Pairwise (· < ·) l := List.chain'_iff_pairwise.mp hc
  have huv := List.pairwise_iff_getElem.mp hp u v (lt_trans hu hv) hv hu
  rw [List.getD_eq_getElem l 0 (lt_trans hu hv), List.getD_eq_getElem l 0 hv]
  exact huv

/-- Helper: setting a flag to `false` never turns a flag to `true`. -/
theorem getD_set_true (l : List Bool) (k i : Nat)
    (h : (l.set k false).getD i false = true) : l.getD i false = true := by
  rw [List.getD_eq_getElem?_getD] at h ⊢
  rw [List.getElem?_set] at h
  by_cases hik : k = i
  · rw [if_pos hik] at h
    by_cases hkl : k < l.length
    · rw [if_pos hkl] at h; cases h
    · rw [if_neg hkl] at h; cases h
  · rw [if_neg hik] at h; exact h

/-- Helper: the left walk never turns a flag to `true`. -/
theorem walkLeft_mono (peaks : List Nat) (d j : Nat) :
    ∀ cnt keep i, (walkLeft peaks d j cnt keep).getD i false = true →
      keep.getD i false = true := by
  intro cnt
  induction cnt with
  | zero => intro keep i h; exact h
  | succ k ih =>
    intro keep i h
    unfold walkLeft at h
    by_cases hc : (peaks.getD j 0 : Int) - peaks.getD k 0 < d
    · rw [if_pos hc] at h
      exact getD_set_true keep k i (ih _ i h)
    · rw [if_neg hc] at h; exact h

/-- Helper: the right walk never turns a flag to `true`. -/
theorem walkRight_mono (peaks : List Nat) (d j : Nat) :
    ∀ fuel k keep i, (walkRight peaks d j fuel k keep).getD i false = true →
      keep.getD i false = true := by
  intro fuel
  induction fuel with
  | zero => intro k keep i h; exact h
  | succ fuel ih =>
    intro k keep i h
    unfold walkRight at h
    by_cases hc : k < peaks.length ∧ (peaks.getD k 0 : Int) - peaks.getD j 0 < d
    · rw [if_pos hc] at h
      exact getD_set_true keep k i (ih _ _ i h)
    · rw [if_neg hc] at h; exact h

/-- Helper: one selection step never turns a flag to `true`. -/
theorem stepKeep_mono (peaks : List Nat) (d : Nat) (keep : List Bool) (j i : Nat)
    (h : (stepKeep peaks d keep j).getD i false = true) :
    keep.getD i false = true := by
  unfold stepKeep at h
  by_cases hj : keep.getD j false = true
  · rw [if_pos hj] at h
    exact walkLeft_mono peaks d j j keep i (walkRight_mono peaks d j _ _ _ i h)
  · rwa [if_neg hj] at h

/-- Helper: the whole selection fold never turns a flag to `true`. -/
theorem foldKeep_mono (peaks : List Nat) (d : Nat) :
    ∀ (order : List Nat) (keep : List Bool) (i : Nat),
      (order.foldl (stepKeep peaks d) keep).getD i false = true →
      keep.getD i false = true := by
  intro order
  induction order with
  | nil => intro keep i h; exact h
  | cons a t ih =>
    intro keep i h
    exact stepKeep_mono peaks d keep a i (ih _ i h)

/-- Helper: a flag just set to `false` reads `false` (out-of-range indices
default to `false` as well). -/
theorem getD_set_false (keep : List Bool) (k : Nat) :
    (keep.set k false).getD k false = false := by
  rw [List.getD_eq_getElem?_getD, List.getElem?_set]
  by_cases hl : k < keep.length
  · rw [if_pos rfl, if_pos hl]; rfl
  · rw [if_pos rfl, if_neg hl]
    simp [List.getElem?_eq_none_iff.mpr (by omega : keep.length ≤ k)]

/-- Helper: on a sorted peak list, the left walk started at `j` removes
every peak below `j` within the distance: the walk condition can only fail
after the target has been passed. -/
theorem walkLeft_kills (peaks : List Nat) (d j : Nat)
    (hs : ∀ u v, u < v → v < peaks.length → peaks.getD u 0 < peaks.getD v 0)
    (hj : j < peaks.length) (i : Nat) (hij : i < j)
    (hclose : (peaks.getD j 0 : Int) - peaks.getD i 0 < d) :
    ∀ cnt keep, i < cnt → cnt ≤ j →
      (walkLeft peaks d j cnt keep).getD i false = false := by
  intro cnt
  induction cnt with
  | zero => intro keep h1 h2; omega
  | succ k ih =>
    intro keep h1 h2
    unfold walkLeft
    have hk : peaks.getD i 0 ≤ peaks.getD k 0 := by
      rcases Nat.lt_or_ge i k with hik | hik
      · exact le_of_lt (hs i k hik (by omega))
      · have hik' : i = k := by omega
        rw [hik']
    have hcond : (peaks.getD j 0 : Int) - peaks.getD k 0 < d := by
      have hc : (peaks.getD i 0 : Int) ≤ peaks.getD k 0 := by exact_mod_cast hk
      omega
    rw [if_pos hcond]
    rcases Nat.lt_or_ge i k with hik | hik
    · exact ih (keep.set k false) hik (by omega)
    · have hik' : i = k := by omega
      subst hik'
      cases hres : (walkLeft peaks d j i (keep.set i false)).getD i false with
      | false => rfl
      | true =>
        exfalso
        have hmono := walkLeft_mono peaks d j i (keep.set i false) i hres
        rw [getD_set_false] at hmono
        cases hmono

/-- Helper: on a sorted peak list, the right walk started at `j` removes
every peak above `j` within the distance. -/
theorem walkRight_kills (peaks : List Nat) (d j : Nat)
    (hs : ∀ u v, u < v → v < peaks.length → peaks.getD u 0 < peaks.getD v 0)
    (i : Nat) (hji : j < i) (hi : i < peaks.length)
    (hclose : (peaks.getD i 0 : Int) - peaks.getD j 0 < d) :
    ∀ fuel k keep, j < k → k ≤ i → i - k < fuel →
      (walkRight peaks d j fuel k keep).getD i false = false := by
  intro fuel
  induction fuel with
  | zero => intro k keep h1 h2 h3; omega
  | succ fuel ih =>
    intro k keep h1 h2 h3
    unfold walkRight
    have hk : peaks.getD k 0 ≤ peaks.getD i 0 := by
      rcases Nat.lt_or_ge k i with hki | hki
      · exact le_of_lt (hs k i hki hi)
      · have hki' : k = i := by omega
        rw [hki']
    have hcond : k < peaks.length ∧ (peaks.getD k 0 : Int) - peaks.getD j 0 < d := by
      refine ⟨by omega, ?_⟩
      have hc : (peaks.getD k 0 : Int) ≤ peaks.getD i 0 := by exact_mod_cast hk
      omega
    rw [if_pos hcond]
    rcases Nat.lt_or_ge k i with hki | hki
    · exact ih (k + 1) (keep.set k false) (by omega) (by omega) (by omega)
    · have hki' : k = i := by omega
      subst hki'
      cases hres : (walkRight peaks d j fuel (k + 1) (keep.set k false)).getD k false with
      | false => rfl
      | true =>
        exfalso
        have hmono := walkRight_mono peaks d j fuel (k + 1) (keep.set k false) k hres
        rw [getD_set_false] at hmono
        cases hmono

/-- Helper: one selection step on a kept peak `j` removes any other peak
within the distance, on either side. -/
theorem stepKeep_kills (peaks : List Nat) (d : Nat)
    (hs : ∀ u v, u < v → v < peaks.length → peaks.getD u 0 < peaks.getD v 0)
    (keep : List Bool) (i j : Nat)
    (hj : j < peaks.length) (hi : i < peaks.length)
    (hkj : keep.getD j false = true)
    (hclose : (i < j ∧ (peaks.getD j 0 : Int) - peaks.getD i 0 < d) ∨
              (j < i ∧ (peaks.getD i 0 : Int) - peaks.getD j 0 < d)) :
    (stepKeep peaks d keep j).getD i false = false := by
  unfold stepKeep
  rw [if_pos hkj]
  rcases hclose with ⟨hij, hc⟩ | ⟨hji, hc⟩
  · have hleft : (walkLeft peaks d j j keep).getD i false = false :=
      walkLeft_kills peaks d j hs hj i hij hc j keep hij (le_refl j)
    cases hres : (walkRight peaks d j peaks.length (j + 1)
        (walkLeft peaks d j j keep)).getD i false with
    | false => rfl
    | true =>
      exfalso
      have hmono := walkRight_mono peaks d j peaks.length (j + 1) _ i hres
      rw [hleft] at hmono
      cases hmono
  · exact walkRight_kills peaks d j hs i hji hi hc peaks.length (j + 1) _
      (by omega) (by omega) (by omega)

/-- Helper: after the whole selection fold, two peaks within the distance
are never both kept: whichever of the two is processed first is still kept
at its turn (flags never revive) and removes the other. -/
theorem foldKeep_not_both (peaks : List Nat) (d : Nat)
    (hs : ∀ u v, u < v → v < peaks.length → peaks.getD u 0 < peaks.getD v 0)
    (i j : Nat) (hi : i < peaks.length) (hj : j < peaks.length)
    (hclose : (i < j ∧ (peaks.getD j 0 : Int) - peaks.getD i 0 < d) ∨
              (j < i ∧ (peaks.getD i 0 : Int) - peaks.getD j 0 < d)) :
    ∀ (order : List Nat) (keep : List Bool), i ∈ order → j ∈ order →
      ¬((order.foldl (stepKeep peaks d) keep).getD i false = true ∧
        (order.foldl (stepKeep peaks d) keep).getD j false = true) := by
  intro order
  induction order with
  | nil => intro keep hia _ hboth; cases hia
  | cons a t ih =>
    intro keep hia hja
    rintro ⟨hki, hkj⟩
    rw [List.foldl_cons] at hki hkj
    by_cases hai : a = i
    · subst hai
      have hka : keep.getD a false = true :=
        stepKeep_mono peaks d keep a a (foldKeep_mono peaks d t _ a hki)
      have hkill : (stepKeep peaks d keep a).getD j false = false :=
        stepKeep_kills peaks d hs keep j a hi hj hka hclose.symm
      have hkj' := foldKeep_mono peaks d t _ j hkj
      rw [hkill] at hkj'
      cases hkj'
    · by_cases haj : a = j
      · subst haj
        have hka : keep.getD a false = true :=
          stepKeep_mono peaks d keep a a (foldKeep_mono peaks d t _ a hkj)
        have hkill : (stepKeep peaks d keep a).getD i false = false :=
          stepKeep_kills peaks d hs keep i a hj hi hka hclose
        have hki' := foldKeep_mono peaks d t _ i hki
        rw [hkill] at hki'
        cases hki'
      · have hit : i ∈ t := by
          rcases List.mem_cons.mp hia with h | h
          · exact absurd h.symm hai
          · exact h
        have hjt : j ∈ t := by
          rcases List.mem_cons.mp hja with h | h
          · exact absurd h.symm haj
          · exact h
        exact ih (stepKeep peaks d keep a) hit hjt ⟨hki, hkj⟩

/-- Helper: membership in the insertion is membership in the inserted
element or the rest. -/
theorem mem_insertDesc (vals : List ℚ) (i a : Nat) :
    ∀ l, (a ∈ insertDesc vals i l ↔ a = i ∨ a ∈ l) := by
  intro l
  induction l with
  | nil => simp [insertDesc]
  | cons j js ih =>
    unfold insertDesc
    by_cases hc : vals.getD j 0 < vals.getD i 0 ∨
        (vals.getD j 0 = vals.getD i 0 ∧ j < i)
    · rw [if_pos hc]
      simp
    · rw [if_neg hc]
      simp [ih]
      tauto

/-- Helper: the processing order visits exactly the indices below the
priority count. -/
theorem mem_procOrder (vals : List ℚ) (a : Nat) :
    a ∈ procOrder vals ↔ a < vals.length := by
  unfold procOrder
  have hfold : ∀ (l acc : List Nat),
      a ∈ l.foldr (insertDesc vals) acc ↔ a ∈ l ∨ a ∈ acc := by
    intro l
    induction l with
    | nil => simp
    | cons b t ih =>
      intro acc
      rw [List.foldr_cons, mem_insertDesc]
      simp [ih]
      tauto
  rw [hfold]
  simp

/-- Helper: two peaks both kept by the distance selection are at least the
distance apart. -/
theorem select_kept_far (peaks : List Nat) (vals : List ℚ) (d : Nat)
    (hvlen : vals.length = peaks.length)
    (hs : ∀ u v, u < v → v < peaks.length → peaks.getD u 0 < peaks.getD v 0)
    (i j : Nat) (hij : i < j) (hj : j < peaks.length)
    (hki : (selectByPeakDistance peaks vals d).getD i false = true)
    (hkj : (selectByPeakDistance peaks vals d).getD j false = true) :
    (d : Int) ≤ (peaks.getD j 0 : Int) - peaks.getD i 0 := by
  by_contra hclose
  push_neg at hclose
  exact foldKeep_not_both peaks d hs i j (lt_trans hij hj) hj
    (Or.inl ⟨hij, hclose⟩) (procOrder vals) (List.replicate peaks.length true)
    ((mem_procOrder vals i).mpr (by omega))
    ((mem_procOrder vals j).mpr (by omega))
    ⟨hki, hkj⟩

/-- Helper: the peaks `find_peaks` reports with minimum distance `d` are
pairwise at least `d` apart, in increasing order. -/
theorem findPeaks_chain (x : List ℚ) (d : Nat) :
    List.Chain' (fun p q => p + d ≤ q) (findPeaks x d) := by
  apply List.Pairwise.chain'
  have hs : ∀ u v, u < v → v < (localMaxima x).length →
      (localMaxima x).getD u 0 < (localMaxima x).getD v 0 :=
    fun u v hu hv => chain_lt_getD _ (localMaxima_chain x) u v hu hv
  simp only [findPeaks]
  apply List.pairwise_filterMap.mpr
  apply List.pairwise_iff_getElem.mpr
  intro u v hu hv huv
  rw [List.getElem_range, List.getElem_range]
  rw [List.length_range] at hu hv
  intro p hp q hq
  by_cases hku : (selectByPeakDistance (localMaxima x)
      ((localMaxima x).map (fun p => x.getD p 0)) d).getD u false = true
  · by_cases hkv : (selectByPeakDistance (localMaxima x)
        ((localMaxima x).map (fun p => x.getD p 0)) d).getD v false = true
    · rw [if_pos hku] at hp
      rw [if_pos hkv] at hq
      simp only [Option.mem_def, Option.some.injEq] at hp hq
      have hfar := select_kept_far (localMaxima x)
        ((localMaxima x).map (fun p => x.getD p 0)) d (by simp) hs u v huv hv hku hkv
      omega
    · rw [if_neg hkv] at hq
      cases hq
  · rw [if_neg hku] at hp
    cases hp

/-- Helper: one step of the consecutive-difference list. -/
theorem diffsQ_cons (p q : Nat) (r : List Nat) :
    diffsQ (p :: q :: r) = ((q : ℚ) - p) :: diffsQ (q :: r) := by
  simp [diffsQ]

/-- Helper: a list of at least two peaks has a non-empty difference list. -/
theorem diffsQ_ne_nil : ∀ l : List Nat, 2 ≤ l.length → diffsQ l ≠ [] := by
  intro l hl
  cases l with
  | nil => simp at hl
  | cons p r =>
    cases r with
    | nil => simp at hl
    | cons q r2 =>
      rw [diffsQ_cons]
      exact List.cons_ne_nil _ _

/-- Helper: consecutive peaks at least `c` apart have differences at least
`c`. -/
theorem diffsQ_ge (c : Nat) : ∀ l : List Nat,
    List.Chain' (fun p q => p + c ≤ q) l → ∀ t ∈ diffsQ l, (c : ℚ) ≤ t := by
  intro l
  induction l with
  | nil => intro _ t ht; simp [diffsQ] at ht
  | cons p rest ih =>
    intro hc t ht
    cases rest with
    | nil => simp [diffsQ] at ht
    | cons q rest2 =>
      rw [List.chain'_cons] at hc
      rw [diffsQ_cons] at ht
      rcases List.mem_cons.mp ht with h | h
      · subst h
        have hpq : (p : ℚ) + c ≤ q := by exact_mod_cast hc.1
        linarith
      · exact ih hc.2 t h

/-- Helper: a list of values all at least `c` sums to at least `c` per
element. -/
theorem le_sum_of_all_le (c : ℚ) : ∀ l : List ℚ,
    (∀ t ∈ l, c ≤ t) → c * l.length ≤ l.sum := by
  intro l
  induction l with
  | nil => simp
  | cons a t ih =>
    intro h
    simp only [List.length_cons, List.sum_cons]
    have h1 : c ≤ a := h a (List.mem_cons_self a t)
    have h2 := ih (fun x hx => h x (List.mem_cons_of_mem a hx))
    push_cast
    nlinarith [h1, h2]

/-- Helper: the mean of a non-empty list of values all at least `c` is at
least `c`. -/
theorem qMean_ge (c : ℚ) (l : List ℚ) (hne : l ≠ []) (h : ∀ t ∈ l, c ≤ t) :
    c ≤ qMean l := by
  have hlen : (0 : ℚ) < l.length := by
    have hp : 0 < l.length := List.length_pos.mpr hne
    exact_mod_cast hp
  rw [qMean, le_div_iff hlen]
  exact le_sum_of_all_le c l h

/-- C2 (amended) — the peaks reported by the code's peak detection
(`distance=5`, both in the Rate Estimator and the Breathing Feature
Extractor) are pairwise at least 5 samples (0.25 s at 20 Hz) apart, and in
consequence the rate the estimator can report is bounded by 240 BPM, not
120. -/
theorem peak_distance_five_caps_rate_at_240 (s : List ℚ) :
    List.Chain' (fun p q => p + 5 ≤ q) (findPeaks s 5) ∧
      estimate_breathing_rate s ≤ 240 := by
  refine ⟨findPeaks_chain s 5, ?_⟩
  unfold estimate_breathing_rate
  by_cases h1 : s.length < 10
  · rw [if_pos h1]; norm_num
  · simp only [if_neg h1]
    by_cases h2 : (findPeaks s 5).length < 2
    · rw [if_pos h2]; norm_num
    · rw [if_neg h2]
      have hall : ∀ t ∈ diffsQ (findPeaks s 5), (5 : ℚ) ≤ t := by
        have hd := diffsQ_ge 5 (findPeaks s 5) (findPeaks_chain s 5)
        exact_mod_cast hd
      have hne : diffsQ (findPeaks s 5) ≠ [] := diffsQ_ne_nil _ (by omega)
      have havg : (5 : ℚ) ≤ qMean (diffsQ (findPeaks s 5)) := qMean_ge 5 _ hne hall
      rw [if_pos (by linarith : (0 : ℚ) < qMean (diffsQ (findPeaks s 5)))]
      rw [div_div_eq_mul_div, div_le_iff (by linarith)]
      linarith

/-- Helper: dividing every element divides the mean. -/
theorem qMean_map_div (l : List ℚ) (c : ℚ) :
    qMean (l.map (fun x => x / c)) = qMean l / c := by
  unfold qMean
  rw [List.length_map]
  have hsum : (l.map (fun x => x / c)).sum = l.sum / c := by
    induction l with
    | nil => simp
    | cons a t ih =>
      simp [ih]
      ring
  rw [hsum]
  ring

/-- Helper: on a list with at least two entries, the zip-with-tail
difference list steps by one cons. -/
theorem zipdiff_cons (f : Nat → ℚ) (a b : Nat) (t : List Nat) :
    (((a :: b :: t).map f).zip ((a :: b :: t).map f).tail).map (fun pq => pq.2 - pq.1)
      = (f b - f a)
          :: (((b :: t).map f).zip ((b :: t).map f).tail).map (fun pq => pq.2 - pq.1) := rfl

/-- Helper: differences of the peak times (`index / fs`) are the sample
differences divided by `fs`. -/
theorem time_diffs_eq (fs : ℚ) : ∀ l : List Nat,
    (((l.map (fun p : Nat => (p : ℚ) / fs)).zip (l.map (fun p : Nat => (p : ℚ) / fs)).tail).map
      (fun pq => pq.2 - pq.1)) = (diffsQ l).map (fun t => t / fs) := by
  intro l
  induction l with
  | nil => rfl
  | cons p r ih =>
    cases r with
    | nil => rfl
    | cons q r2 =>
      rw [zipdiff_cons (fun p : Nat => (p : ℚ) / fs) p q r2, diffsQ_cons, List.map_cons]
      refine congrArg₂ (· :: ·) ?_ ih
      show (q : ℚ) / fs - (p : ℚ) / fs = ((q : ℚ) - (p : ℚ)) / fs
      ring

/-- The Rate Estimator as §4.4 of the spec words it: peaks of the signal
(fewer than 2 peaks, or fewer than 10 samples, give BPM `0.0`), peak times
`index / fs`, consecutive time differences, `60.0 / mean_interval`. -/
def specBreathingRate (fs : ℚ) (s : List ℚ) : ℚ :=
  if s.length < 10 ∨ (findPeaks s 5).length < 2 then 0
  else
    60 / qMean ((((findPeaks s 5).map (fun p : Nat => (p : ℚ) / fs)).zip
      ((findPeaks s 5).map (fun p : Nat => (p : ℚ) / fs)).tail).map (fun pq => pq.2 - pq.1))

/-- C5 — the code's rate estimator computes exactly the spec's formula at
`fs = 20`: `0.0` for signals under 10 samples or under 2 peaks, else `60.0`
over the mean inter-peak time (`index / fs`); the code's extra
`avg_time_diff > 0` test never fires because consecutive peaks are at least
5 samples apart. -/
theorem estimate_breathing_rate_matches_spec_formula (s : List ℚ) :
    estimate_breathing_rate s = specBreathingRate 20 s := by
  unfold estimate_breathing_rate specBreathingRate
  by_cases h1 : s.length < 10
  · rw [if_pos h1, if_pos (Or.inl h1)]
  · by_cases h2 : (findPeaks s 5).length < 2
    · simp only [if_neg h1, if_pos h2]
      rw [if_pos (Or.inr h2)]
    · simp only [if_neg h1, if_neg h2]
      rw [if_neg (not_or.mpr ⟨h1, h2⟩)]
      have hall : ∀ t ∈ diffsQ (findPeaks s 5), (5 : ℚ) ≤ t := by
        have hd := diffsQ_ge 5 (findPeaks s 5) (findPeaks_chain s 5)
        exact_mod_cast hd
      have hne := diffsQ_ne_nil (findPeaks s 5) (by omega)
      have havg : (5 : ℚ) ≤ qMean (diffsQ (findPeaks s 5)) := qMean_ge 5 _ hne hall
      rw [if_pos (by linarith : (0 : ℚ) < qMean (diffsQ (findPeaks s 5)))]
      rw [time_diffs_eq 20 (findPeaks s 5), qMean_map_div]

/-- Helper: the maxima scan finds nothing in an all-zero signal (no strict
rise anywhere). -/
theorem lmAux_zeros (n iMax : Nat) :
    ∀ fuel i, lmAux (List.replicate n 0) iMax fuel i = [] := by
  intro fuel
  induction fuel with
  | zero => intro i; rfl
  | succ fuel ih =>
    intro i
    unfold lmAux
    by_cases hi : i < iMax
    · rw [if_pos hi, getD_replicate_zero, getD_replicate_zero,
        if_neg (lt_irrefl (0 : ℚ))]
      exact ih (i + 1)
    · rw [if_neg hi]

/-- Helper: `find_peaks` reports no peak in an all-zero signal. -/
theorem findPeaks_zeros (n d : Nat) : findPeaks (List.replicate n 0) d = [] := by
  unfold findPeaks localMaxima
  rw [lmAux_zeros]
  rfl

/-- The breathing test the claim attributes to the verdict: `num_peaks > 0`
and in-band variance above `breathing_threshold`, on the features the
Breathing Feature Extractor computes; `false` when the extraction path
raises (no band-limited signal exists).  This is the claim's asserted
characterization, to be compared with the flag the code actually returns. -/
def claimBreathingTest (c : Coeffs) (f : Frame) : Bool :=
  match extract_breathing_features c f with
  | some ft => decide (0 < ft.num_peaks) && decide (breathing_threshold < ft.variance)
  | none => false

/-- The C1 counterexample frame: thirty samples over two subcarriers, each
row summing to `1` (so the cross-subcarrier mean series is constant and the
band-limited signal is identically zero), while each subcarrier's temporal
variance is `9/100`, inside the band `(0.05, 0.15)`. -/
def f30 : Frame := List.replicate 15 [0, 1] ++ List.replicate 15 [3/5, 2/5]

/-- Helper: the variance score of the counterexample frame. -/
theorem varianceScore_f30 : varianceScore f30 = 9 / 100 := by
  have hcol0 : colVals f30 0 = List.replicate 15 0 ++ List.replicate 15 (3/5) := by
    simp [colVals, f30]
  have hcol1 : colVals f30 1 = List.replicate 15 1 ++ List.replicate 15 (2/5) := by
    simp [colVals, f30]
  have hsub : numSub f30 = 2 := by
    simp [numSub, f30, List.replicate_succ]
  unfold varianceScore
  rw [hsub, show List.range 2 = [0, 1] from rfl]
  simp only [List.map_cons, List.map_nil, hcol0, hcol1]
  rw [qVar_halves 15 (by norm_num) 0 (3/5), qVar_halves 15 (by norm_num) 1 (2/5)]
  norm_num [qMean]

/-- Helper: the verdict's breathing flag on the counterexample frame is set
(raw banded-variance test passes). -/
theorem breathing_flag_f30 :
    (detect_presence presence_threshold breathing_threshold f30).2.1 = true := by
  unfold detect_presence
  rw [if_neg (by simp [f30])]
  simp only [varianceScore_f30, Bool.and_eq_true, decide_eq_true_eq]
  norm_num [presence_threshold, breathing_threshold]

/-- Helper: the Breathing Feature Extractor on the counterexample frame,
for every coefficient value: the constant mean series normalizes to the
zero signal, any linear zero-phase filter maps it to zero, and the zero
signal has no peak and zero variance. -/
theorem features_f30 (c : Coeffs) :
    extract_breathing_features c f30
      = some ⟨0, 0, 0, List.replicate 30 0, []⟩ := by
  have hm : f30.map rowMean = List.replicate 30 (1/2 : ℚ) := by
    have h1 : rowMean [0, 1] = 1/2 := by norm_num [rowMean, qMean]
    have h2 : rowMean [3/5, 2/5] = 1/2 := by norm_num [rowMean, qMean]
    simp only [f30, List.map_append, List.map_replicate, h1, h2, ← List.replicate_add]
  have hn : normalize_signal (List.replicate 30 (1/2 : ℚ)) = List.replicate 30 0 := by
    unfold normalize_signal
    rw [qVar_replicate, if_neg (lt_irrefl (0 : ℚ)), qMean_replicate 30 (by norm_num)]
    simp
  simp only [extract_breathing_features]
  rw [hm, hn, filtfilt_zero c 30 (by norm_num)]
  simp only [qVar_replicate, findPeaks_zeros, List.map_replicate, abs_zero,
    List.length_nil, Option.some.injEq, BreathingFeatures.mk.injEq, and_true, true_and]
  exact qMean_replicate 30 (by norm_num) 0

/-- C1 counterexample — on the frame `f30` the verdict's breathing flag is
True, while the claim's peak-plus-in-band-variance test is False for every
possible filter coefficient value (the band-limited signal is identically
zero: no peaks, zero variance): the flag is decided by the banded test on
the raw cross-subcarrier variance score, not by the band-limited features. -/
theorem breathing_flag_ignores_bandlimited_features :
    (detect_presence presence_threshold breathing_threshold f30).2.1 = true ∧
      ∀ c : Coeffs, claimBreathingTest c f30 = false := by
  refine ⟨breathing_flag_f30, ?_⟩
  intro c
  unfold claimBreathingTest
  rw [features_f30 c]
  simp

/-- C1 (amended) — for every non-empty frame, the verdict's breathing flag
is True exactly when the raw cross-subcarrier variance score lies strictly
between `breathing_threshold` and `presence_threshold`; the band-limited
features of `extract_breathing_features` are computed elsewhere and never
consulted by `detect_presence`. -/
theorem breathing_flag_iff_banded_raw_variance (f : Frame) (hne : f ≠ []) :
    (detect_presence presence_threshold breathing_threshold f).2.1 = true ↔
      (breathing_threshold < varianceScore f ∧
        varianceScore f < presence_threshold) := by
  unfold detect_presence
  rw [if_neg (by simpa using hne)]
  simp

/-- Witness for the amended C1 at a concrete input: the banded test on the
frame `f30`. -/
theorem breathing_flag_iff_banded_raw_variance_witness :
    (detect_presence presence_threshold breathing_threshold f30).2.1 = true ↔
      (breathing_threshold < varianceScore f30 ∧
        varianceScore f30 < presence_threshold) :=
  breathing_flag_iff_banded_raw_variance f30 (by simp [f30])

/-- The C2 counterexample signal: ten samples with local maxima of distinct
heights at indices 1 and 6, five samples apart. -/
def sig0 : List ℚ := [0, 2, 0, 0, 0, 0, 1, 0, 0, 0]

/-- Helper: plateau scan at the first maximum of the counterexample signal. -/
theorem plateau_sig0_1 : plateauEnd [0, 2, 0, 0, 0, 0, 1, 0, 0, 0] 9 1 9 2 = 2 := by
  norm_num [plateauEnd]

/-- Helper: plateau scan at the second maximum of the counterexample
signal. -/
theorem plateau_sig0_6 : plateauEnd [0, 2, 0, 0, 0, 0, 1, 0, 0, 0] 9 6 9 7 = 7 := by
  norm_num [plateauEnd]

/-- Helper: the maxima scan on the counterexample signal, step at `i = 1`. -/
theorem lm_sig0_1 : lmAux [0, 2, 0, 0, 0, 0, 1, 0, 0, 0] 9 10 1
    = 1 :: lmAux [0, 2, 0, 0, 0, 0, 1, 0, 0, 0] 9 9 3 := by
  rw [show (10 : Nat) = 9 + 1 from rfl, lmAux.eq_2, plateau_sig0_1]
  norm_num

/-- Helper: step at `i = 3` (no rise). -/
theorem lm_sig0_3 : lmAux [0, 2, 0, 0, 0, 0, 1, 0, 0, 0] 9 9 3
    = lmAux [0, 2, 0, 0, 0, 0, 1, 0, 0, 0] 9 8 4 := by
  rw [show (9 : Nat) = 8 + 1 from rfl, lmAux.eq_2]
  norm_num

/-- Helper: step at `i = 4` (no rise). -/
theorem lm_sig0_4 : lmAux [0, 2, 0, 0, 0, 0, 1, 0, 0, 0] 9 8 4
    = lmAux [0, 2, 0, 0, 0, 0, 1, 0, 0, 0] 9 7 5 := by
  rw [show (8 : Nat) = 7 + 1 from rfl, lmAux.eq_2]
  norm_num

/-- Helper: step at `i = 5` (no rise). -/
theorem lm_sig0_5 : lmAux [0, 2, 0, 0, 0, 0, 1, 0, 0, 0] 9 7 5
    = lmAux [0, 2, 0, 0, 0, 0, 1, 0, 0, 0] 9 6 6 := by
  rw [show (7 : Nat) = 6 + 1 from rfl, lmAux.eq_2]
  norm_num

/-- Helper: step at `i = 6` (second maximum). -/
theorem lm_sig0_6 : lmAux [0, 2, 0, 0, 0, 0, 1, 0, 0, 0] 9 6 6
    = 6 :: lmAux [0, 2, 0, 0, 0, 0, 1, 0, 0, 0] 9 5 8 := by
  rw [show (6 : Nat) = 5 + 1 from rfl, lmAux.eq_2, plateau_sig0_6]
  norm_num [plateau_sig0_6]

/-- Helper: step at `i = 8` (no rise). -/
theorem lm_sig0_8 : lmAux [0, 2, 0, 0, 0, 0, 1, 0, 0, 0] 9 5 8
    = lmAux [0, 2, 0, 0, 0, 0, 1, 0, 0, 0] 9 4 9 := by
  rw [show (5 : Nat) = 4 + 1 from rfl, lmAux.eq_2]
  norm_num

/-- Helper: step at `i = 9` (scan end). -/
theorem lm_sig0_9 : lmAux [0, 2, 0, 0, 0, 0, 1, 0, 0, 0] 9 4 9 = [] := by
  rw [show (4 : Nat) = 3 + 1 from rfl, lmAux.eq_2]
  norm_num

/-- Helper: the local maxima of the counterexample signal are the indices
1 and 6. -/
theorem localMaxima_sig0 : localMaxima sig0 = [1, 6] := by
  unfold localMaxima sig0
  norm_num [lm_sig0_1, lm_sig0_3, lm_sig0_4, lm_sig0_5, lm_sig0_6, lm_sig0_8,
    lm_sig0_9]

/-- Helper: both maxima survive the `distance=5` selection (they are
exactly 5 samples apart, and the removal condition is strict). -/
theorem findPeaks_sig0 : findPeaks sig0 5 = [1, 6] := by
  simp only [findPeaks, localMaxima_sig0]
  norm_num [sig0, selectByPeakDistance, procOrder, insertDesc, stepKeep,
    walkLeft, walkRight, List.range_succ, List.getElem?_replicate,
    List.filterMap_cons, List.filterMap_nil]

/-- Helper: the estimator reports 240 BPM on the counterexample signal
(mean inter-peak distance 5 samples at the hard-coded 20 Hz). -/
theorem rate_sig0 : estimate_breathing_rate sig0 = 240 := by
  unfold estimate_breathing_rate
  rw [if_neg (by norm_num [sig0])]
  simp only [findPeaks_sig0]
  norm_num [diffsQ, qMean]

/-- C2 counterexample — the peak detection of the Rate Estimator uses
`distance=5`, not `0.5 * fs = 10`: on `sig0` it reports the two peaks at
indices 1 and 6, only 5 samples (0.25 s) apart, and the estimated rate is
240 BPM, above the claimed 120 BPM bound. -/
theorem reported_peaks_five_apart_rate_240 :
    findPeaks sig0 5 = [1, 6] ∧ estimate_breathing_rate sig0 = 240 :=
  ⟨findPeaks_sig0, rate_sig0⟩
